import Mathlib

/-!
Shallow embedding of the chunked, concurrent transfer engine of the
gpbackup-s3-plugin repository (files `s3plugin/restore.go`,
`s3plugin/s3plugin.go` and the backup/upload file of the same package),
together with theorems about the chunk planner, the sequential
reassembler, the worker pool, the buffer pool, the retry policy and the
path-mangling helper `GetS3Path`.

Byte counts and sizes are Go `int64` values; they are modelled as `Int`
(the quantities involved are object sizes and byte offsets, far below
the `int64` range, so wrap-around is not modelled).  Byte payloads are
modelled as `List Nat`.  External collaborators (the S3 client, the SDK
default retryer) are oracles passed in as parameters.
-/

set_option linter.unusedVariables false

/-- `type chunk struct { chunkIndex int; startByte int64; endByte int64 }`
from `restore.go`. -/
structure Chunk where
  chunkIndex : Nat
  startByte : Int
  endByte : Int
deriving DecidableEq

/-- `numberOfChunks := int((totalBytes + downloadChunkSize - 1) / downloadChunkSize)`
from `downloadFileInParallel` in `restore.go`. -/
def numberOfChunksInt (totalBytes downloadChunkSize : Int) : Int :=
  (totalBytes + downloadChunkSize - 1) / downloadChunkSize

/-- The chunk-planning loop of `downloadFileInParallel`:

```
startByte := int64(0); endByte := int64(-1); done := false
for chunkIndex := 0; chunkIndex < numberOfChunks && !done; chunkIndex++ {
    startByte = endByte + 1
    endByte += downloadChunkSize
    if endByte >= totalBytes { endByte = totalBytes - 1; done = true }
    jobs <- chunk{chunkIndex, startByte, endByte}
}
```

The remaining iteration count (`numberOfChunks - chunkIndex`) is the fuel;
the `done` flag is the early return of the clamped branch. -/
def chunkJobs (downloadChunkSize totalBytes : Int) : Nat → Nat → Int → List Chunk
  | 0, _, _ => []
  | fuel + 1, chunkIndex, endByte =>
    let startByte := endByte + 1
    let endByte2 := endByte + downloadChunkSize
    if totalBytes ≤ endByte2 then
      [⟨chunkIndex, startByte, totalBytes - 1⟩]
    else
      ⟨chunkIndex, startByte, endByte2⟩ ::
        chunkJobs downloadChunkSize totalBytes fuel (chunkIndex + 1) endByte2

/-- The full chunk plan of `downloadFileInParallel`: the planning loop run
from `chunkIndex = 0`, `endByte = -1` for `numberOfChunks` iterations. -/
def planChunks (totalBytes downloadChunkSize : Int) : List Chunk :=
  chunkJobs downloadChunkSize totalBytes
    (numberOfChunksInt totalBytes downloadChunkSize).toNat 0 (-1)

/-- Closed form for the chunk the loop emits at index `i`. -/
def idealChunk (totalBytes downloadChunkSize : Int) (i : Nat) : Chunk :=
  ⟨i, i * downloadChunkSize,
    min (((i : Int) + 1) * downloadChunkSize - 1) (totalBytes - 1)⟩

/-- `numberOfWorkers := downloadConcurrency; if numberOfChunks < downloadConcurrency
{ numberOfWorkers = numberOfChunks }` from `downloadFileInParallel`. -/
def numberOfWorkersOf (downloadConcurrency numberOfChunks : Int) : Int :=
  if numberOfChunks < downloadConcurrency then numberOfChunks else downloadConcurrency

/-- The buffer-pool creation loop of `downloadFileInParallel`:
`for i := 0; i < cap(downloadBuffers); i++ { buffer := make([]byte, downloadChunkSize);
downloadBuffers <- buffer }` — `count` buffers, each a zeroed byte slice of
length `downloadChunkSize`. -/
def mkDownloadBuffers (count : Nat) (downloadChunkSize : Int) : List (List Nat) :=
  List.replicate count (List.replicate downloadChunkSize.toNat 0)

/-- The buffer pool channel as a counting semaphore: `(available, checkedOut)`. -/
inductive PoolOp where
  | acquire : PoolOp
  | release : PoolOp
deriving DecidableEq

/-- One interaction with the `downloadBuffers` channel: `<-downloadBuffers`
blocks (is disabled) when the pool is empty; `downloadBuffers <- buffer`
returns a previously checked-out buffer. -/
def poolStep : Nat × Nat → PoolOp → Option (Nat × Nat)
  | (avail, out), .acquire => if avail = 0 then none else some (avail - 1, out + 1)
  | (avail, out), .release => if out = 0 then none else some (avail + 1, out - 1)

/-- A sequence of pool interactions starting from a given pool state. -/
def runPool : Nat × Nat → List PoolOp → Option (Nat × Nat)
  | st, [] => some st
  | st, op :: ops =>
    match poolStep st op with
    | none => none
    | some st2 => runPool st2 ops

/-- The error component of one ranged-download attempt
(`chunkBytes, err := downloader.Download(...)`). -/
def errOf (r : Except String (List Nat)) : Option String :=
  match r with
  | .error e => some e
  | .ok _ => none

/-- Observable state of one download worker plus the shared `finalErr`
variable: the value of `finalErr`, the chunk indices sent on the copy
channels, and the chunk indices pulled from the `jobs` queue. -/
structure WorkerState where
  finalErr : Option String
  signals : List Nat
  pulled : List Nat
deriving DecidableEq

/-- The worker goroutine body of `downloadFileInParallel`:

```
for j := range jobs {
    buffer := <-downloadBuffers
    ...
    chunkBytes, err := downloader.Download(...)
    if err != nil { finalErr = err }
    ...
    copyChannel[j.chunkIndex] <- j.chunkIndex
}
```

The loop never breaks on error: it records the failure in `finalErr`,
still sends the chunk's signal, and pulls the next job. -/
def workerLoop (download : Chunk → Except String (List Nat)) :
    List Chunk → WorkerState → WorkerState
  | [], st => st
  | j :: rest, st =>
    let st1 : WorkerState := { st with pulled := st.pulled ++ [j.chunkIndex] }
    let st2 : WorkerState :=
      match download j with
      | .error e => { st1 with finalErr := some e }
      | .ok _ => st1
    let st3 : WorkerState := { st2 with signals := st2.signals ++ [j.chunkIndex] }
    workerLoop download rest st3

/-- The value of the shared `finalErr` variable after the per-chunk outcomes
`f` have been recorded in the order given by `schedule` (`finalErr = err`
overwrites on every failure). -/
def errAfter (f : Nat → Option String) (schedule : List Nat) : Option String :=
  schedule.foldl
    (fun acc i =>
      match f i with
      | some e => some e
      | none => acc)
    none

/-- The copy goroutine advancing from `next`: while chunk `next` has
signalled (`currentChunk := <-copyChannel[next]` would return), write it to
the destination and move on; otherwise block.  `fired` is the set of chunk
indices whose signal has been sent; `out` is the write order so far. -/
def drainAux (fired : List Nat) : Nat → Nat → List Nat → Nat × List Nat
  | 0, next, out => (next, out)
  | fuel + 1, next, out =>
    if next ∈ fired then drainAux fired fuel (next + 1) (out ++ [next])
    else (next, out)

/-- Interleaving of the workers' completion signals with the copy goroutine:
each element of `schedule` is the next chunk index whose signal fires, after
which the copy goroutine consumes every channel it is no longer blocked on
(in ascending index order, as in `for i := range copyChannel {
currentChunk := <-copyChannel[i]; file.Write(*bufferPointers[currentChunk]) ... }`). -/
def processSchedule (n : Nat) :
    List Nat → List Nat × Nat × List Nat → List Nat × Nat × List Nat
  | [], st => st
  | s :: rest, (fired, next, out) =>
    let fired2 := s :: fired
    let d := drainAux fired2 n next out
    processSchedule n rest (fired2, d.1, d.2)

/-- The order in which the copy goroutine writes chunks to the destination,
for a transfer of `n` chunks whose completion signals arrive in the order
`schedule`. -/
def reassembleOrder (n : Nat) (schedule : List Nat) : List Nat :=
  (processSchedule n schedule ([], 0, [])).2.2

/-- The S3 object as seen through the session: the `HeadObject`
`ContentLength` reply and the payload of an un-ranged `GetObject`. -/
structure S3Store where
  size : Int
  content : List Nat
deriving DecidableEq

/-- The payload an S3 ranged `GetObject` with `Range: bytes=s-e` returns. -/
def rangeSlice (content : List Nat) (s e : Int) : List Nat :=
  (content.drop s.toNat).take (e - s + 1).toNat

/-- Observable effects of one `downloadFile` call: the `GetObjectInput`
requests issued (`none` = no `Range` header), the bytes written to the
destination file, the returned byte count, and — on the parallel path —
the chunk plan, the allocated buffer pool and the number of spawned
workers. -/
structure DownloadTrace where
  requests : List (Option (Int × Int))
  written : List Nat
  returned : Int
  chunkPlan : Option (List Chunk)
  poolBuffers : Option (List (List Nat))
  workers : Option Nat
deriving DecidableEq

/-- `downloadFile` from `restore.go`: probe the size; if
`totalBytes <= config.Options.DownloadChunkSize` download the whole object
un-ranged into one buffer and write it (single-shot path), otherwise hand
off to `downloadFileInParallel`, whose chunks are fetched with ranged
requests and written in chunk order by the copy goroutine. -/
def downloadFileTrace (downloadConcurrency downloadChunkSize : Int)
    (store : S3Store) : DownloadTrace :=
  let totalBytes := store.size
  if totalBytes ≤ downloadChunkSize then
    { requests := [none]
      written := store.content
      returned := totalBytes
      chunkPlan := none
      poolBuffers := none
      workers := none }
  else
    let plan := planChunks totalBytes downloadChunkSize
    let nw := (numberOfWorkersOf downloadConcurrency
      (numberOfChunksInt totalBytes downloadChunkSize)).toNat
    { requests := plan.map (fun c => some (c.startByte, c.endByte))
      written := (plan.map (fun c => rangeSlice store.content c.startByte c.endByte)).flatten
      returned := totalBytes
      chunkPlan := some plan
      poolBuffers := some (mkDownloadBuffers nw downloadChunkSize)
      workers := some nw }

/-- The upload side, from `uploadFile`: the outcome of `uploader.Upload` and
the reply of the `getFileSize` probe issued afterwards. -/
structure UploadEnv where
  uploadErr : Option String
  headResult : Except String Int

/-- `uploadFile` from the backup file: upload the stream; on success the
returned byte count is `getFileSize(uploader.S3, bucket, fileKey)` — the
`HeadObject` `ContentLength` of the uploaded key.  The source stream's own
length is never consulted. -/
def uploadFileModel (env : UploadEnv) (source : List Nat) : Except String Int :=
  match env.uploadErr with
  | some e => Except.error e
  | none => env.headResult

/-- Whether `pat` is an initial segment of `s` (character-wise). -/
def listHasPre : List Char → List Char → Bool
  | [], _ => true
  | _ :: _, [] => false
  | p :: ps, c :: cs => p == c && listHasPre ps cs

/-- Whether `pat` occurs contiguously somewhere in `s`. -/
def goContainsAux (pat : List Char) : List Char → Bool
  | [] => pat.isEmpty
  | c :: cs => listHasPre pat (c :: cs) || goContainsAux pat cs

/-- Go `strings.Contains(s, sub)`. -/
def goStringContains (s sub : String) : Bool :=
  goContainsAux sub.data s.data

/-- The parts of an `*request.Request` that `CustomRetryer.ShouldRetry`
reads: the retry count (used only in the debug log line), the request error
message (`nil` = `none`) and the HTTP response status code. -/
structure RetryRequest where
  retryCount : Nat
  errMsg : Option String
  statusCode : Int
deriving DecidableEq

/-- `req.Error != nil && strings.Contains(req.Error.Error(), "connection reset by peer")`. -/
def connResetErr (req : RetryRequest) : Bool :=
  match req.errMsg with
  | some m => goStringContains m "connection reset by peer"
  | none => false

/-- `CustomRetryer.ShouldRetry` from `s3plugin.go`.  The delegated
`r.DefaultRetryer.ShouldRetry(req)` call is SDK code outside this
repository, modelled as the oracle `defaultShouldRetry`:

```
if r.NumMaxRetries == 0 { return false }
willRetry := false
if req.Error != nil && strings.Contains(req.Error.Error(), "connection reset by peer") {
    willRetry = true
} else if req.HTTPResponse.StatusCode == 404 {
    willRetry = true
} else {
    willRetry = r.DefaultRetryer.ShouldRetry(req)
}
if willRetry { gplog.Debug(...); return true }
return false
```
-/
def shouldRetry (numMaxRetries : Nat) (defaultShouldRetry : RetryRequest → Bool)
    (req : RetryRequest) : Bool :=
  if numMaxRetries = 0 then false
  else
    let willRetry :=
      if connResetErr req then true
      else if req.statusCode = 404 then true
      else defaultShouldRetry req
    if willRetry then true else false

/-- Go `strings.Split(s, sep)` for a single-character separator: splitting
the empty string yields one empty component, and every separator occurrence
opens a new component. -/
def goSplitChar (sep : Char) : List Char → List (List Char)
  | [] => [[]]
  | c :: cs =>
    if c = sep then [] :: goSplitChar sep cs
    else
      match goSplitChar sep cs with
      | [] => [[c]]
      | p :: ps => (c :: p) :: ps

/-- Go `strings.Join(elems, sep)`. -/
def goJoin (sep : List Char) : List (List Char) → List Char
  | [] => []
  | [x] => x
  | x :: y :: xs => x ++ sep ++ goJoin sep (y :: xs)

/-- `GetS3Path` from `s3plugin.go`:

```
pathArray := strings.Split(path, "/")
lastFour := strings.Join(pathArray[(len(pathArray)-4):], "/")
return fmt.Sprintf("%s/%s", folder, lastFour)
```

When `path` has fewer than four components, `len(pathArray)-4` is negative
and the slice expression is a runtime panic, modelled as `none`. -/
def GetS3Path (folder path : String) : Option String :=
  let pathArray := goSplitChar '/' path.data
  if 4 ≤ pathArray.length then
    some (folder ++ "/" ++
      String.mk (goJoin ['/'] (pathArray.drop (pathArray.length - 4))))
  else
    none

example : planChunks 12 5 = [⟨0, 0, 4⟩, ⟨1, 5, 9⟩, ⟨2, 10, 11⟩] := by decide

example : GetS3Path "s3/Dir" "a/b/c/d" = some "s3/Dir/a/b/c/d" := by decide

example : GetS3Path "s3/Dir" "a/b/c" = none := by decide

example : reassembleOrder 3 [2, 0, 1] = [0, 1, 2] := by decide

example : goStringContains "read tcp: connection reset by peer" "connection reset by peer" = true := by
  decide

example :
    GetS3Path "s3/Dir" "/a/b/c/tmp/datadir/gpseg-1/backups/20180101/20180101082233/backup_file"
      = some "s3/Dir/backups/20180101/20180101082233/backup_file" := by
  decide

/-! ### Arithmetic facts about the chunk count -/

theorem numberOfChunks_mul_ge (T C : Int) (hC : 0 < C) :
    T ≤ numberOfChunksInt T C * C := by
  have hdm := Int.ediv_add_emod (T + C - 1) C
  have hrC := Int.emod_lt_of_pos (T + C - 1) hC
  have hcomm : numberOfChunksInt T C * C = C * ((T + C - 1) / C) := by
    unfold numberOfChunksInt; ring
  linarith

theorem numberOfChunks_pred_mul_lt (T C : Int) (hC : 0 < C) :
    (numberOfChunksInt T C - 1) * C < T := by
  have hdm := Int.ediv_add_emod (T + C - 1) C
  have hr0 := Int.emod_nonneg (T + C - 1) (ne_of_gt hC)
  have hcomm : (numberOfChunksInt T C - 1) * C = C * ((T + C - 1) / C) - C := by
    unfold numberOfChunksInt; ring
  linarith

theorem numberOfChunks_pos (T C : Int) (hT : 0 < T) (hC : 0 < C) :
    0 < numberOfChunksInt T C := by
  by_contra h
  push_neg at h
  nlinarith [numberOfChunks_mul_ge T C hC]

theorem numberOfChunks_toNat_cast (T C : Int) (hT : 0 < T) (hC : 0 < C) :
    ((numberOfChunksInt T C).toNat : Int) = numberOfChunksInt T C :=
  Int.toNat_of_nonneg (le_of_lt (numberOfChunks_pos T C hT hC))

/-- Any index strictly below the chunk count starts strictly inside the object. -/
theorem idx_mul_lt (T C : Int) (hT : 0 < T) (hC : 0 < C) (i : Int)
    (hi : i < numberOfChunksInt T C) : i * C < T := by
  have h1 : i ≤ numberOfChunksInt T C - 1 := by omega
  have h2 : i * C ≤ (numberOfChunksInt T C - 1) * C :=
    mul_le_mul_of_nonneg_right h1 (le_of_lt hC)
  have h3 := numberOfChunks_pred_mul_lt T C hC
  linarith

/-! ### The planning loop emits exactly the ideal chunks -/

theorem chunkJobs_succ (C T : Int) (fuel idx : Nat) (e : Int) :
    chunkJobs C T (fuel + 1) idx e =
      if T ≤ e + C then [⟨idx, e + 1, T - 1⟩]
      else ⟨idx, e + 1, e + C⟩ :: chunkJobs C T fuel (idx + 1) (e + C) := rfl

theorem chunkJobs_eq_ideal (T C : Int) (hT : 0 < T) (hC : 0 < C) :
    ∀ (n idx : Nat), idx + n = (numberOfChunksInt T C).toNat →
      chunkJobs C T n idx ((idx : Int) * C - 1) =
        (List.range' idx n).map (idealChunk T C) := by
  intro n
  induction n with
  | zero => intro idx h; rfl
  | succ m ih =>
    intro idx h
    have hNcast := numberOfChunks_toNat_cast T C hT hC
    have hNge := numberOfChunks_mul_ge T C hC
    have ha : ((idx : Int) + 1) * C = (idx : Int) * C + C := by ring
    have hstart : (idx : Int) * C - 1 + 1 = (idx : Int) * C := by ring
    have hrange : List.range' idx (m + 1) = idx :: List.range' (idx + 1) m := rfl
    rw [chunkJobs_succ, hrange, List.map_cons]
    by_cases hcond : T ≤ (idx : Int) * C - 1 + C
    · rw [if_pos hcond]
      have hm : m = 0 := by
        by_contra hm0
        have hlt : (idx : Int) + 1 < numberOfChunksInt T C := by omega
        have h5 := idx_mul_lt T C hT hC ((idx : Int) + 1) hlt
        rw [ha] at h5
        linarith
      subst hm
      have htail : List.range' (idx + 1) 0 = [] := rfl
      rw [htail, List.map_nil]
      unfold idealChunk
      have hend : min (((idx : Int) + 1) * C - 1) (T - 1) = T - 1 :=
        min_eq_right (by linarith)
      rw [hend, hstart]
    · rw [if_neg hcond]
      push_neg at hcond
      have hrec : (idx : Int) * C - 1 + C = ((idx + 1 : Nat) : Int) * C - 1 := by
        push_cast; ring
      rw [hrec, ih (idx + 1) (by omega)]
      unfold idealChunk
      have hend : min (((idx : Int) + 1) * C - 1) (T - 1) = ((idx : Int) + 1) * C - 1 :=
        min_eq_left (by linarith)
      rw [hend, hstart]
      have hcast : ((idx + 1 : Nat) : Int) * C - 1 = ((idx : Int) + 1) * C - 1 := by
        push_cast; ring
      rw [hcast]

theorem planChunks_eq_ideal (T C : Int) (hT : 0 < T) (hC : 0 < C) :
    planChunks T C =
      (List.range (numberOfChunksInt T C).toNat).map (idealChunk T C) := by
  unfold planChunks
  rw [List.range_eq_range']
  have h0 := chunkJobs_eq_ideal T C hT hC (numberOfChunksInt T C).toNat 0 (by omega)
  have hz : ((0 : Nat) : Int) * C - 1 = -1 := by norm_num
  rw [hz] at h0
  exact h0

theorem planChunks_length (T C : Int) (hT : 0 < T) (hC : 0 < C) :
    (planChunks T C).length = (numberOfChunksInt T C).toNat := by
  rw [planChunks_eq_ideal T C hT hC, List.length_map, List.length_range]

theorem planChunks_get (T C : Int) (hT : 0 < T) (hC : 0 < C)
    (i : Nat) (h : i < (planChunks T C).length) :
    (planChunks T C).get ⟨i, h⟩ = idealChunk T C i := by
  have hplan := planChunks_eq_ideal T C hT hC
  have hi : i < (numberOfChunksInt T C).toNat := by
    rw [← planChunks_length T C hT hC]; exact h
  rw [List.get_eq_getElem]
  conv in planChunks T C => rw [hplan]
  rw [List.getElem_map, List.getElem_range]

theorem ideal_sizes_sum (T C : Int) (hT : 0 < T) (hC : 0 < C) :
    ∀ (k idx : Nat), idx + k = (numberOfChunksInt T C).toNat →
      ((List.range' idx k).map
          (fun i => (idealChunk T C i).endByte - (idealChunk T C i).startByte + 1)).sum
        = T - min ((idx : Int) * C) T := by
  intro k
  induction k with
  | zero =>
    intro idx h
    have hNcast := numberOfChunks_toNat_cast T C hT hC
    have hNge := numberOfChunks_mul_ge T C hC
    have hidx : (idx : Int) = numberOfChunksInt T C := by omega
    have hmin : min ((idx : Int) * C) T = T := by
      rw [hidx]; exact min_eq_right hNge
    simp [hmin]
  | succ m ih =>
    intro idx h
    have hNcast := numberOfChunks_toNat_cast T C hT hC
    have ha : ((idx : Int) + 1) * C = (idx : Int) * C + C := by ring
    have hidxlt : (idx : Int) < numberOfChunksInt T C := by omega
    have hlow := idx_mul_lt T C hT hC (idx : Int) hidxlt
    have hrange : List.range' idx (m + 1) = idx :: List.range' (idx + 1) m := rfl
    rw [hrange, List.map_cons, List.sum_cons, ih (idx + 1) (by omega)]
    unfold idealChunk
    have hcast : ((idx + 1 : Nat) : Int) = (idx : Int) + 1 := by push_cast; ring
    rw [hcast, ha]
    have hminlow : min ((idx : Int) * C) T = (idx : Int) * C :=
      min_eq_left (le_of_lt hlow)
    rw [hminlow]
    simp only []
    omega

/-- C1: for totalBytes > 0 and chunkSize > 0 with totalBytes > chunkSize, the
chunk-planning loop of `downloadFileInParallel` produces
`numberOfChunks = ceil(totalBytes / chunkSize)` chunks (the source's
`(totalBytes + chunkSize - 1) / chunkSize`, characterized as the least
multiple of `chunkSize` covering `totalBytes`) whose `(startByte, endByte)`
ranges, in `chunkIndex` order, partition `[0, totalBytes)` contiguously
with no gaps or overlaps: chunk `i` carries index `i` and starts at
`i * chunkSize`, consecutive chunks abut, the final chunk ends at
`totalBytes - 1`, and the sizes sum to `totalBytes`.  For
totalBytes = 12 MiB and chunkSize = 5 MiB the plan is exactly
`[0,5242879], [5242880,10485759], [10485760,12582911]`. -/
theorem chunkPlan_partitions (T C : Int) (hT : 0 < T) (hC : 0 < C) (hTC : C < T) :
    ((planChunks T C).length : Int) = (T + C - 1) / C
    ∧ T ≤ ((planChunks T C).length : Int) * C
    ∧ (((planChunks T C).length : Int) - 1) * C < T
    ∧ (∀ i, ∀ h : i < (planChunks T C).length,
        ((planChunks T C).get ⟨i, h⟩).chunkIndex = i
        ∧ ((planChunks T C).get ⟨i, h⟩).startByte = (i : Int) * C
        ∧ ((planChunks T C).get ⟨i, h⟩).endByte = min (((i : Int) + 1) * C - 1) (T - 1)
        ∧ ((planChunks T C).get ⟨i, h⟩).startByte ≤ ((planChunks T C).get ⟨i, h⟩).endByte)
    ∧ (∀ i, ∀ h : i + 1 < (planChunks T C).length,
        ((planChunks T C).get ⟨i + 1, h⟩).startByte
          = ((planChunks T C).get ⟨i, Nat.lt_of_succ_lt h⟩).endByte + 1)
    ∧ 0 < (planChunks T C).length
    ∧ (∀ h : 0 < (planChunks T C).length, ((planChunks T C).get ⟨0, h⟩).startByte = 0)
    ∧ ((planChunks T C).map Chunk.endByte).getLast? = some (T - 1)
    ∧ ((planChunks T C).map (fun c => c.endByte - c.startByte + 1)).sum = T
    ∧ planChunks 12582912 5242880
        = [⟨0, 0, 5242879⟩, ⟨1, 5242880, 10485759⟩, ⟨2, 10485760, 12582911⟩] := by
  have hNcast := numberOfChunks_toNat_cast T C hT hC
  have hNge := numberOfChunks_mul_ge T C hC
  have hNpos := numberOfChunks_pos T C hT hC
  have hlen := planChunks_length T C hT hC
  have hlenInt : ((planChunks T C).length : Int) = numberOfChunksInt T C := by
    rw [hlen]; exact hNcast
  have hget := planChunks_get T C hT hC
  refine ⟨?_, ?_, ?_, ?_, ?_, ?_, ?_, ?_, ?_, ?_⟩
  · rw [hlenInt]; rfl
  · rw [hlenInt]; exact hNge
  · rw [hlenInt]; exact numberOfChunks_pred_mul_lt T C hC
  · intro i h
    rw [hget i h]
    have hi : (i : Int) < numberOfChunksInt T C := by
      have : i < (numberOfChunksInt T C).toNat := by rw [← hlen]; exact h
      omega
    have hlow := idx_mul_lt T C hT hC (i : Int) hi
    refine ⟨rfl, rfl, rfl, ?_⟩
    unfold idealChunk
    have h1 : (i : Int) * C ≤ ((i : Int) + 1) * C - 1 := by nlinarith
    have h2 : (i : Int) * C ≤ T - 1 := by omega
    exact le_min h1 h2
  · intro i h
    rw [hget (i + 1) h, hget i (Nat.lt_of_succ_lt h)]
    have hi1 : ((i : Int) + 1) < numberOfChunksInt T C := by
      have : i + 1 < (numberOfChunksInt T C).toNat := by rw [← hlen]; exact h
      omega
    have hlow := idx_mul_lt T C hT hC ((i : Int) + 1) hi1
    unfold idealChunk
    have hmin : min (((i : Int) + 1) * C - 1) (T - 1) = ((i : Int) + 1) * C - 1 :=
      min_eq_left (by omega)
    rw [hmin]
    push_cast
    ring
  · rw [hlen]; omega
  · intro h
    rw [hget 0 h]
    unfold idealChunk
    norm_num
  · have hne : planChunks T C ≠ [] := by
      intro hnil
      have := hlen
      rw [hnil] at this
      simp at this
      omega
    rw [List.getLast?_eq_getElem?]
    have hlast : (planChunks T C).length - 1 < (planChunks T C).length := by
      rw [hlen]; omega
    rw [List.length_map, List.getElem?_eq_getElem (by rw [List.length_map]; exact hlast)]
    rw [List.getElem_map]
    have hg : (planChunks T C)[(planChunks T C).length - 1] =
        idealChunk T C ((planChunks T C).length - 1) :=
      hget ((planChunks T C).length - 1) hlast
    rw [hg]
    unfold idealChunk
    have hcast1 : (((planChunks T C).length - 1 : Nat) : Int) + 1
        = numberOfChunksInt T C := by
      rw [hlen]; omega
    rw [hcast1]
    have hmin : min (numberOfChunksInt T C * C - 1) (T - 1) = T - 1 :=
      min_eq_right (by omega)
    rw [hmin]
  · rw [planChunks_eq_ideal T C hT hC, List.range_eq_range', List.map_map]
    have := ideal_sizes_sum T C hT hC (numberOfChunksInt T C).toNat 0 (by omega)
    have hz : min (((0 : Nat) : Int) * C) T = 0 := by
      norm_num
      omega
    rw [hz] at this
    rw [show (fun c => c.endByte - c.startByte + 1) ∘ idealChunk T C
        = fun i => (idealChunk T C i).endByte - (idealChunk T C i).startByte + 1 from rfl]
    omega
  · decide

/-- Witness for C1 at totalBytes = 12, chunkSize = 5: the sizes of the three
planned chunks sum to the total. -/
theorem chunkPlan_partitions_witness :
    ((planChunks 12 5).map (fun c => c.endByte - c.startByte + 1)).sum = 12 :=
  (chunkPlan_partitions 12 5 (by norm_num) (by norm_num) (by norm_num)).2.2.2.2.2.2.2.2.1

/-! ### The copy goroutine consumes signals strictly in index order -/

theorem drainAux_succ (fired : List Nat) (fuel next : Nat) (out : List Nat) :
    drainAux fired (fuel + 1) next out =
      if next ∈ fired then drainAux fired fuel (next + 1) (out ++ [next])
      else (next, out) := rfl

theorem drainAux_spec (n : Nat) (fired : List Nat) (hb : ∀ x ∈ fired, x < n) :
    ∀ (fuel next : Nat) (out : List Nat), out = List.range next →
      (∀ k, k < next → k ∈ fired) → n ≤ fuel + next →
      (drainAux fired fuel next out).2 = List.range (drainAux fired fuel next out).1
      ∧ (∀ k, k < (drainAux fired fuel next out).1 → k ∈ fired)
      ∧ (drainAux fired fuel next out).1 ∉ fired := by
  intro fuel
  induction fuel with
  | zero =>
    intro next out hout hmem hfuel
    refine ⟨hout, hmem, ?_⟩
    intro hin
    exact absurd (hb next hin) (by omega)
  | succ fuel ih =>
    intro next out hout hmem hfuel
    by_cases hin : next ∈ fired
    · have hstep := drainAux_succ fired fuel next out
      rw [if_pos hin] at hstep
      rw [hstep]
      refine ih (next + 1) (out ++ [next]) ?_ ?_ ?_
      · rw [hout, ← List.range_succ]
      · intro k hk
        rcases Nat.lt_succ_iff_lt_or_eq.mp hk with h1 | h1
        · exact hmem k h1
        · rw [h1]; exact hin
      · omega
    · have hstep := drainAux_succ fired fuel next out
      rw [if_neg hin] at hstep
      rw [hstep]
      exact ⟨hout, hmem, hin⟩

theorem processSchedule_spec (n : Nat) :
    ∀ (schedule fired : List Nat) (next : Nat) (out : List Nat),
      (∀ x ∈ schedule, x < n) → (∀ x ∈ fired, x < n) →
      out = List.range next → (∀ k, k < next → k ∈ fired) → next ∉ fired →
      ((processSchedule n schedule (fired, next, out)).2.2
          = List.range (processSchedule n schedule (fired, next, out)).2.1)
      ∧ (∀ k, k < (processSchedule n schedule (fired, next, out)).2.1 →
          k ∈ (processSchedule n schedule (fired, next, out)).1)
      ∧ ((processSchedule n schedule (fired, next, out)).2.1
          ∉ (processSchedule n schedule (fired, next, out)).1)
      ∧ (∀ x, x ∈ (processSchedule n schedule (fired, next, out)).1
          ↔ x ∈ fired ∨ x ∈ schedule) := by
  intro schedule
  induction schedule with
  | nil =>
    intro fired next out hbs hbf hout hmem hnot
    refine ⟨hout, hmem, hnot, ?_⟩
    intro x
    simp [processSchedule]
  | cons s rest ih =>
    intro fired next out hbs hbf hout hmem hnot
    have hbs2 : ∀ x ∈ s :: fired, x < n := by
      intro x hx
      rcases List.mem_cons.mp hx with h1 | h1
      · exact hbs x (by rw [h1]; exact List.mem_cons_self s rest)
      · exact hbf x h1
    have hmem2 : ∀ k, k < next → k ∈ s :: fired := by
      intro k hk
      exact List.mem_cons_of_mem s (hmem k hk)
    have hd := drainAux_spec n (s :: fired) hbs2 n next out hout hmem2 (by omega)
    have hrest : ∀ x ∈ rest, x < n := by
      intro x hx
      exact hbs x (List.mem_cons_of_mem s hx)
    have hstep : processSchedule n (s :: rest) (fired, next, out)
        = processSchedule n rest
            (s :: fired, (drainAux (s :: fired) n next out).1,
              (drainAux (s :: fired) n next out).2) := rfl
    rw [hstep]
    have hih := ih (s :: fired) (drainAux (s :: fired) n next out).1
      (drainAux (s :: fired) n next out).2 hrest hbs2 hd.1 hd.2.1 hd.2.2
    refine ⟨hih.1, hih.2.1, hih.2.2.1, ?_⟩
    intro x
    rw [hih.2.2.2 x]
    simp only [List.mem_cons]
    tauto

/-- If every chunk's completion signal eventually fires (in any order), the
copy goroutine writes all `n` chunks, in ascending index order. -/
theorem reassembleOrder_complete (n : Nat) (schedule : List Nat)
    (hperm : schedule.Perm (List.range n)) :
    reassembleOrder n schedule = List.range n := by
  have hbs : ∀ x ∈ schedule, x < n := by
    intro x hx
    have := hperm.mem_iff.mp hx
    exact List.mem_range.mp this
  have hspec := processSchedule_spec n schedule [] 0 []
    hbs (by intro x hx; cases hx) rfl (by intro k hk; omega) (by intro hk; cases hk)
  set P := processSchedule n schedule ([], 0, []) with hP
  have hout : P.2.2 = List.range P.2.1 := hspec.1
  have hmem : ∀ k, k < P.2.1 → k ∈ P.1 := hspec.2.1
  have hnot : P.2.1 ∉ P.1 := hspec.2.2.1
  have hiff : ∀ x, x ∈ P.1 ↔ x ∈ [] ∨ x ∈ schedule := hspec.2.2.2
  have heq : P.2.1 = n := by
    have hle : P.2.1 ≤ n := by
      by_contra hgt
      push_neg at hgt
      have h1 : n ∈ P.1 := hmem n hgt
      have h2 : n ∈ schedule := by
        rcases (hiff n).mp h1 with h | h
        · cases h
        · exact h
      exact absurd (hbs n h2) (by omega)
    have hge : n ≤ P.2.1 := by
      by_contra hlt
      push_neg at hlt
      have h1 : P.2.1 ∈ schedule :=
        hperm.mem_iff.mpr (List.mem_range.mpr hlt)
      have h2 : P.2.1 ∈ P.1 := (hiff P.2.1).mpr (Or.inr h1)
      exact hnot h2
    omega
  unfold reassembleOrder
  rw [← hP, hout, heq]

/-! ### Concatenating the planned ranges reproduces the object -/

theorem ideal_slices_flatten (T C : Int) (hT : 0 < T) (hC : 0 < C)
    (content : List Nat) (hlen : (content.length : Int) = T) :
    ∀ (k idx : Nat), idx + k = (numberOfChunksInt T C).toNat →
      ((List.range' idx k).map
          (fun i => rangeSlice content (idealChunk T C i).startByte
            (idealChunk T C i).endByte)).flatten
        = content.drop ((idx : Int) * C).toNat := by
  intro k
  induction k with
  | zero =>
    intro idx h
    have hNcast := numberOfChunks_toNat_cast T C hT hC
    have hNge := numberOfChunks_mul_ge T C hC
    have hidx : (idx : Int) = numberOfChunksInt T C := by omega
    have hbig : content.length ≤ ((idx : Int) * C).toNat := by
      rw [hidx]
      omega
    simp only [List.range', List.map_nil, List.flatten_nil]
    exact (List.drop_eq_nil_of_le hbig).symm
  | succ m ih =>
    intro idx h
    have hNcast := numberOfChunks_toNat_cast T C hT hC
    have ha : ((idx : Int) + 1) * C = (idx : Int) * C + C := by ring
    have hidxlt : (idx : Int) < numberOfChunksInt T C := by omega
    have hlow := idx_mul_lt T C hT hC (idx : Int) hidxlt
    have hnn : 0 ≤ (idx : Int) * C := mul_nonneg (by positivity) (le_of_lt hC)
    have hrange : List.range' idx (m + 1) = idx :: List.range' (idx + 1) m := rfl
    rw [hrange, List.map_cons, List.flatten_cons, ih (idx + 1) (by omega)]
    have hcast : ((idx + 1 : Nat) : Int) = (idx : Int) + 1 := by push_cast; ring
    rw [hcast, ha]
    unfold idealChunk rangeSlice
    simp only []
    have hsize : min (((idx : Int) + 1) * C - 1) (T - 1) - (idx : Int) * C + 1
        = min ((idx : Int) * C + C) T - (idx : Int) * C := by
      rw [ha]; omega
    rw [hsize]
    have htake : (min ((idx : Int) * C + C) T - (idx : Int) * C).toNat
        = (min ((idx : Int) * C + C) T).toNat - ((idx : Int) * C).toNat := by
      omega
    rw [htake]
    set A := ((idx : Int) * C).toNat with hA
    set B := (min ((idx : Int) * C + C) T).toNat with hB
    have hAB : A ≤ B := by omega
    have hdd : (content.drop A).take (B - A) ++ (content.drop A).drop (B - A)
        = content.drop A := List.take_append_drop (B - A) (content.drop A)
    have hdrop2 : (content.drop A).drop (B - A) = content.drop B := by
      rw [List.drop_drop]
      congr 1
      omega
    have hlast : content.drop (((idx : Int) * C + C).toNat) = content.drop B := by
      rcases le_or_lt ((idx : Int) * C + C) T with hle | hgt
      · congr 1
        omega
      · have h1 : content.length ≤ ((idx : Int) * C + C).toNat := by omega
        have h2 : content.length ≤ B := by omega
        rw [List.drop_eq_nil_of_le h1, List.drop_eq_nil_of_le h2]
    rw [hlast, ← hdrop2, hdd]

theorem planChunks_slices_flatten (T C : Int) (hT : 0 < T) (hC : 0 < C)
    (content : List Nat) (hlen : (content.length : Int) = T) :
    ((planChunks T C).map
        (fun c => rangeSlice content c.startByte c.endByte)).flatten = content := by
  rw [planChunks_eq_ideal T C hT hC, List.range_eq_range', List.map_map]
  have h0 := ideal_slices_flatten T C hT hC content hlen
    (numberOfChunksInt T C).toNat 0 (by omega)
  have hz : (((0 : Nat) : Int) * C).toNat = 0 := by norm_num
  rw [hz, List.drop_zero] at h0
  rw [show (fun c => rangeSlice content c.startByte c.endByte) ∘ idealChunk T C
      = fun i => rangeSlice content (idealChunk T C i).startByte
          (idealChunk T C i).endByte from rfl]
  exact h0

/-- C2: for every parallel download and every order in which worker
completion signals arrive, the sequential copy goroutine of
`downloadFileInParallel` writes the chunk buffers strictly in ascending
chunk index order (it waits on `copyChannel[0]`, then `copyChannel[1]`, ...),
so the reassembled output equals the concatenation of the chunks' contents
in original byte order — and, for the ranges the planner produces, that
concatenation is byte-for-byte the original object. -/
theorem reassembler_writes_in_order (n : Nat) (schedule : List Nat)
    (publish : Nat → List Nat) (hperm : schedule.Perm (List.range n)) :
    reassembleOrder n schedule = List.range n
    ∧ ((reassembleOrder n schedule).map publish).flatten
        = ((List.range n).map publish).flatten
    ∧ (∀ (T C : Int) (content : List Nat), 0 < T → 0 < C →
        (content.length : Int) = T →
        ((planChunks T C).map
            (fun c => rangeSlice content c.startByte c.endByte)).flatten = content) := by
  have h1 := reassembleOrder_complete n schedule hperm
  refine ⟨h1, by rw [h1], ?_⟩
  intro T C content hT hC hlen
  exact planChunks_slices_flatten T C hT hC content hlen

/-- Witness for C2 with three chunks completing in the order 2, 0, 1: the
copy goroutine still writes chunks 0, 1, 2 in order. -/
theorem reassembler_writes_in_order_witness :
    reassembleOrder 3 [2, 0, 1] = List.range 3 :=
  (reassembler_writes_in_order 3 [2, 0, 1] (fun i => [i]) (by decide)).1

/-! ### The shared finalErr variable and the worker loop -/

theorem errAfter_append (f : Nat → Option String) (xs : List Nat) (x : Nat) :
    errAfter f (xs ++ [x])
      = match f x with
        | some e => some e
        | none => errAfter f xs := by
  unfold errAfter
  rw [List.foldl_append]
  rfl

theorem errAfter_eq_getLast (f : Nat → Option String) (schedule : List Nat) :
    errAfter f schedule = (schedule.filterMap f).getLast? := by
  induction schedule using List.reverseRecOn with
  | nil => rfl
  | append_singleton xs x ih =>
    rw [errAfter_append, List.filterMap_append]
    cases hfx : f x with
    | none => simp [hfx, ih]
    | some e => simp [hfx]

theorem workerLoop_cons_ok (download : Chunk → Except String (List Nat))
    (j : Chunk) (rest : List Chunk) (st : WorkerState) (v : List Nat)
    (hdl : download j = Except.ok v) :
    workerLoop download (j :: rest) st
      = workerLoop download rest
          { finalErr := st.finalErr
            signals := st.signals ++ [j.chunkIndex]
            pulled := st.pulled ++ [j.chunkIndex] } := by
  simp [workerLoop, hdl]

theorem workerLoop_cons_error (download : Chunk → Except String (List Nat))
    (j : Chunk) (rest : List Chunk) (st : WorkerState) (e : String)
    (hdl : download j = Except.error e) :
    workerLoop download (j :: rest) st
      = workerLoop download rest
          { finalErr := some e
            signals := st.signals ++ [j.chunkIndex]
            pulled := st.pulled ++ [j.chunkIndex] } := by
  simp [workerLoop, hdl]

theorem workerLoop_processes_all (download : Chunk → Except String (List Nat)) :
    ∀ (jobs : List Chunk) (st : WorkerState),
      (workerLoop download jobs st).pulled = st.pulled ++ jobs.map Chunk.chunkIndex
      ∧ (workerLoop download jobs st).signals = st.signals ++ jobs.map Chunk.chunkIndex
      ∧ (workerLoop download jobs st).finalErr
          = ((jobs.filterMap (fun j => errOf (download j))).getLast?).elim
              st.finalErr some := by
  intro jobs
  induction jobs with
  | nil =>
    intro st
    refine ⟨by simp [workerLoop], by simp [workerLoop], ?_⟩
    simp [workerLoop, Option.elim]
  | cons j rest ih =>
    intro st
    cases hdl : download j with
    | ok v =>
      rw [workerLoop_cons_ok download j rest st v hdl]
      have herr : errOf (download j) = none := by rw [hdl]; rfl
      refine ⟨?_, ?_, ?_⟩
      · rw [(ih _).1]
        simp
      · rw [(ih _).2.1]
        simp
      · rw [(ih _).2.2]
        simp only [List.filterMap_cons, herr]
    | error e =>
      rw [workerLoop_cons_error download j rest st e hdl]
      have herr : errOf (download j) = some e := by rw [hdl]; rfl
      refine ⟨?_, ?_, ?_⟩
      · rw [(ih _).1]
        simp
      · rw [(ih _).2.1]
        simp
      · rw [(ih _).2.2]
        simp only [List.filterMap_cons, herr]
        cases hfm : rest.filterMap (fun j => errOf (download j)) with
        | nil => rfl
        | cons y ys =>
          rw [List.getLast?_cons_cons]
          have hz := List.getLast?_eq_getLast (y :: ys) (by simp)
          rw [hz]
          rfl

/-- C4 (amended): if some chunk's worker fails permanently while others
succeed, `downloadFileInParallel` still terminates — the worker loop sends
the chunk's signal on `copyChannel[j.chunkIndex]` even when the download
errored, so the sequential reassembler consumes every signal and never
deadlocks — and the transfer ends with a non-nil `finalErr`; when several
workers fail, the error returned is the last recorded failure (each failing
worker overwrites the shared `finalErr` variable), not the first. -/
theorem parallel_download_failure_terminates (n : Nat) (schedule : List Nat)
    (f : Nat → Option String) (hperm : schedule.Perm (List.range n))
    (hfail : ∃ i ∈ schedule, f i ≠ none) :
    reassembleOrder n schedule = List.range n
    ∧ errAfter f schedule ≠ none
    ∧ errAfter f schedule = (schedule.filterMap f).getLast?
    ∧ (∀ (download : Chunk → Except String (List Nat)) (jobs : List Chunk)
        (st : WorkerState),
        (workerLoop download jobs st).signals
          = st.signals ++ jobs.map Chunk.chunkIndex) := by
  refine ⟨reassembleOrder_complete n schedule hperm, ?_,
    errAfter_eq_getLast f schedule, ?_⟩
  · rw [errAfter_eq_getLast f schedule]
    obtain ⟨i, hmem, hne⟩ := hfail
    cases hfi : f i with
    | none => exact absurd hfi hne
    | some e =>
      have h1 : e ∈ schedule.filterMap f := by
        rw [List.mem_filterMap]
        exact ⟨i, hmem, hfi⟩
      intro hnone
      cases hfm : schedule.filterMap f with
      | nil =>
        rw [hfm] at h1
        cases h1
      | cons y ys =>
        rw [hfm, List.getLast?_eq_getLast (y :: ys) (by simp)] at hnone
        cases hnone
  · intro download jobs st
    exact (workerLoop_processes_all download jobs st).2.1

/-- Witness for C4 at the claim's scenario: three chunks, the worker for
chunk 1 fails with PermissionDenied, completion order 2, 0, 1 — the
reassembler still writes every chunk and the transfer ends in error. -/
theorem parallel_download_failure_terminates_witness :
    reassembleOrder 3 [2, 0, 1] = List.range 3
    ∧ errAfter (fun i => if i = 1 then some "PermissionDenied" else none)
        [2, 0, 1] ≠ none := by
  have h := parallel_download_failure_terminates 3 [2, 0, 1]
    (fun i => if i = 1 then some "PermissionDenied" else none)
    (by decide) ⟨1, by decide, by decide⟩
  exact ⟨h.1, h.2.1⟩

/-- C4 counterexample to "the first recorded failure wins": chunk 0 fails
with "A" and is recorded first, chunk 1 fails with "B" and is recorded
second; the shared `finalErr` ends as "B", not the first recorded "A". -/
theorem finalErr_not_first_counterexample :
    (fun i => if i = 0 then some "A" else some "B") 0 = some "A"
    ∧ errAfter (fun i => if i = 0 then some "A" else some "B") [0, 1] = some "B"
    ∧ errAfter (fun i => if i = 0 then some "A" else some "B") [0, 1] ≠ some "A" := by
  refine ⟨rfl, rfl, by decide⟩

/-- C5 (amended): after a ranged request fails, the worker of
`downloadFileInParallel` records the failure in the shared `finalErr` but
keeps pulling jobs until the queue is drained: every queued chunk is pulled
and signalled regardless of earlier failures, and when any job fails the
transfer ends with a non-nil error — the last recorded failure. -/
theorem worker_drains_queue (download : Chunk → Except String (List Nat))
    (jobs : List Chunk) (st : WorkerState) :
    (workerLoop download jobs st).pulled = st.pulled ++ jobs.map Chunk.chunkIndex
    ∧ (workerLoop download jobs st).signals = st.signals ++ jobs.map Chunk.chunkIndex
    ∧ (workerLoop download jobs st).finalErr
        = ((jobs.filterMap (fun j => errOf (download j))).getLast?).elim
            st.finalErr some
    ∧ ((∃ j ∈ jobs, errOf (download j) ≠ none) → st.finalErr = none →
        (workerLoop download jobs st).finalErr ≠ none) := by
  have h := workerLoop_processes_all download jobs st
  refine ⟨h.1, h.2.1, h.2.2, ?_⟩
  intro hfail hinit
  rw [h.2.2]
  obtain ⟨j, hmem, hne⟩ := hfail
  cases hfj : errOf (download j) with
  | none => exact absurd hfj hne
  | some e =>
    have h1 : e ∈ jobs.filterMap (fun j => errOf (download j)) := by
      rw [List.mem_filterMap]
      exact ⟨j, hmem, hfj⟩
    cases hfm : jobs.filterMap (fun j => errOf (download j)) with
    | nil =>
      rw [hfm] at h1
      cases h1
    | cons y ys =>
      rw [List.getLast?_eq_getLast (y :: ys) (by simp)]
      intro hc
      cases hc

/-- Witness for C5: a queue of two jobs whose first download fails — the
worker still pulls and signals both, and `finalErr` is set. -/
theorem worker_drains_queue_witness :
    (workerLoop
        (fun c => if c.chunkIndex = 0 then Except.error "PermissionDenied"
          else Except.ok [])
        [⟨0, 0, 4⟩, ⟨1, 5, 9⟩] ⟨none, [], []⟩).pulled
      = ([] : List Nat) ++ ([⟨0, 0, 4⟩, ⟨1, 5, 9⟩] : List Chunk).map Chunk.chunkIndex :=
  (worker_drains_queue
    (fun c => if c.chunkIndex = 0 then Except.error "PermissionDenied"
      else Except.ok [])
    [⟨0, 0, 4⟩, ⟨1, 5, 9⟩] ⟨none, [], []⟩).1

/-- C5 counterexample to "never pulls another job after a failure": with a
two-job queue whose first download fails permanently, the same worker has
already recorded the failure after job 0 and nevertheless pulls job 1. -/
theorem worker_pulls_after_failure_counterexample :
    (workerLoop
        (fun c => if c.chunkIndex = 0 then Except.error "PermissionDenied"
          else Except.ok [])
        [⟨0, 0, 4⟩] ⟨none, [], []⟩).finalErr = some "PermissionDenied"
    ∧ (workerLoop
        (fun c => if c.chunkIndex = 0 then Except.error "PermissionDenied"
          else Except.ok [])
        [⟨0, 0, 4⟩, ⟨1, 5, 9⟩] ⟨none, [], []⟩).pulled = [0, 1] := by
  refine ⟨by decide, by decide⟩

/-! ### The retry policy -/

/-- C3 counterexample: with the baseline maximum of 10, a request whose
attempt count has already reached 10 and whose response is a 404 still gets
`true` from `CustomRetryer.ShouldRetry` — the attempt-count cap is not
enforced by this function (even with a delegate that always refuses). -/
theorem shouldRetry_at_cap_counterexample :
    10 ≤ (RetryRequest.mk 10 none 404).retryCount
    ∧ shouldRetry 10 (fun _ => false) (RetryRequest.mk 10 none 404) = true
    ∧ shouldRetry 10 (fun _ => false)
        (RetryRequest.mk 10 (some "read tcp: connection reset by peer") 500) = true := by
  refine ⟨by decide, by decide, by decide⟩

/-- C3 (amended): the only cap `CustomRetryer.ShouldRetry` itself enforces
is the degenerate one — when the configured `NumMaxRetries` is 0 it returns
false for every request regardless of error class; when `NumMaxRetries` is
positive it returns true for connection-reset errors and for 404 responses
regardless of the request's attempt count (the attempt-count cap against
the baseline maximum of 10 is enforced outside this function, by the SDK's
send loop and its delegated default retryer). -/
theorem shouldRetry_cap_only_at_zero (numMaxRetries : Nat)
    (defaultShouldRetry : RetryRequest → Bool) (req : RetryRequest) :
    (numMaxRetries = 0 →
      shouldRetry numMaxRetries defaultShouldRetry req = false)
    ∧ (0 < numMaxRetries → connResetErr req = true →
        shouldRetry numMaxRetries defaultShouldRetry req = true)
    ∧ (0 < numMaxRetries → connResetErr req = false → req.statusCode = 404 →
        shouldRetry numMaxRetries defaultShouldRetry req = true) := by
  refine ⟨?_, ?_, ?_⟩
  · intro h0
    simp [shouldRetry, h0]
  · intro hpos hconn
    have hne : numMaxRetries ≠ 0 := by omega
    simp [shouldRetry, hne, hconn]
  · intro hpos hconn h404
    have hne : numMaxRetries ≠ 0 := by omega
    simp [shouldRetry, hne, hconn, h404]

/-- Witness for the amended C3: a connection-reset request at attempt 12
with the baseline maximum of 10 still retries. -/
theorem shouldRetry_cap_only_at_zero_witness :
    shouldRetry 10 (fun _ => false)
      (RetryRequest.mk 12 (some "read tcp: connection reset by peer") 500) = true :=
  (shouldRetry_cap_only_at_zero 10 (fun _ => false)
    (RetryRequest.mk 12 (some "read tcp: connection reset by peer") 500)).2.1
    (by decide) (by decide)

/-- C6: for a positive configured maximum, `CustomRetryer.ShouldRetry`
checks its triggers in priority order — a "connection reset by peer" error
wins over everything and yields true; otherwise a 404 status yields true;
otherwise the decision is exactly the delegated SDK default retryer's; in
particular a 200 response with no error and a refusing delegate yields
false. -/
theorem shouldRetry_priority (numMaxRetries : Nat)
    (defaultShouldRetry : RetryRequest → Bool) (req : RetryRequest)
    (hpos : 0 < numMaxRetries) :
    (connResetErr req = true →
      shouldRetry numMaxRetries defaultShouldRetry req = true)
    ∧ (connResetErr req = false → req.statusCode = 404 →
        shouldRetry numMaxRetries defaultShouldRetry req = true)
    ∧ (connResetErr req = false → req.statusCode ≠ 404 →
        shouldRetry numMaxRetries defaultShouldRetry req = defaultShouldRetry req)
    ∧ (req.errMsg = none → req.statusCode = 200 → defaultShouldRetry req = false →
        shouldRetry numMaxRetries defaultShouldRetry req = false) := by
  have hne : numMaxRetries ≠ 0 := by omega
  refine ⟨?_, ?_, ?_, ?_⟩
  · intro hconn
    simp [shouldRetry, hne, hconn]
  · intro hconn h404
    simp [shouldRetry, hne, hconn, h404]
  · intro hconn h404
    simp [shouldRetry, hne, hconn, h404]
  · intro herr h200 hd
    have hconn : connResetErr req = false := by
      unfold connResetErr
      rw [herr]
    have h404 : req.statusCode ≠ 404 := by
      rw [h200]
      decide
    simp [shouldRetry, hne, hconn, h404, hd]

/-- Witness for C6: the repository's own test cases — a 404 response
retries, a 200 response with no error does not. -/
theorem shouldRetry_priority_witness :
    shouldRetry 5 (fun _ => false) (RetryRequest.mk 0 none 404) = true
    ∧ shouldRetry 5 (fun _ => false) (RetryRequest.mk 0 none 200) = false := by
  refine ⟨?_, ?_⟩
  · exact (shouldRetry_priority 5 (fun _ => false) (RetryRequest.mk 0 none 404)
      (by decide)).2.1 (by decide) (by decide)
  · exact (shouldRetry_priority 5 (fun _ => false) (RetryRequest.mk 0 none 200)
      (by decide)).2.2.2 rfl rfl rfl

/-! ### The single-shot path and the buffer pool -/

/-- C7: whenever the probed object size is at most the configured download
chunk size — including a zero-size object — `downloadFile` takes the
single-shot path: exactly one un-ranged `GetObject`, the whole buffer
written to the destination, the probed size returned, and no chunk plan,
buffer pool or worker pool constructed; a zero-size object leaves the
destination empty. -/
theorem downloadFile_single_shot (downloadConcurrency downloadChunkSize : Int)
    (store : S3Store) (hsize : store.size ≤ downloadChunkSize)
    (hcoh : (store.content.length : Int) = store.size) :
    (downloadFileTrace downloadConcurrency downloadChunkSize store).requests = [none]
    ∧ (downloadFileTrace downloadConcurrency downloadChunkSize store).written
        = store.content
    ∧ (downloadFileTrace downloadConcurrency downloadChunkSize store).returned
        = store.size
    ∧ (downloadFileTrace downloadConcurrency downloadChunkSize store).chunkPlan = none
    ∧ (downloadFileTrace downloadConcurrency downloadChunkSize store).poolBuffers = none
    ∧ (downloadFileTrace downloadConcurrency downloadChunkSize store).workers = none
    ∧ (store.size = 0 →
        (downloadFileTrace downloadConcurrency downloadChunkSize store).written = []) := by
  have htrace : downloadFileTrace downloadConcurrency downloadChunkSize store
      = { requests := [none]
          written := store.content
          returned := store.size
          chunkPlan := none
          poolBuffers := none
          workers := none } := by
    unfold downloadFileTrace
    rw [if_pos hsize]
  rw [htrace]
  refine ⟨rfl, rfl, rfl, rfl, rfl, rfl, ?_⟩
  intro h0
  have : store.content.length = 0 := by omega
  exact List.length_eq_zero.mp this

/-- Witness for C7 at a zero-size object: the single-shot path with nothing
written. -/
theorem downloadFile_single_shot_witness :
    (downloadFileTrace 6 5242880 (S3Store.mk 0 [])).chunkPlan = none
    ∧ (downloadFileTrace 6 5242880 (S3Store.mk 0 [])).written = [] := by
  have h := downloadFile_single_shot 6 5242880 (S3Store.mk 0 [])
    (by decide) (by decide)
  exact ⟨h.2.2.2.1, h.2.2.2.2.2.2 rfl⟩

theorem runPool_cons (st : Nat × Nat) (op : PoolOp) (ops : List PoolOp) :
    runPool st (op :: ops)
      = match poolStep st op with
        | none => none
        | some st2 => runPool st2 ops := rfl

theorem poolStep_acquire (a c : Nat) :
    poolStep (a, c) PoolOp.acquire
      = if a = 0 then none else some (a - 1, c + 1) := rfl

theorem poolStep_release (a c : Nat) :
    poolStep (a, c) PoolOp.release
      = if c = 0 then none else some (a + 1, c - 1) := rfl

theorem runPool_conserves :
    ∀ (ops : List PoolOp) (a c : Nat) (st : Nat × Nat),
      runPool (a, c) ops = some st → st.1 + st.2 = a + c := by
  intro ops
  induction ops with
  | nil =>
    intro a c st h
    have h2 : (a, c) = st := by
      simpa [runPool] using h
    rw [← h2]
  | cons op rest ih =>
    intro a c st h
    rw [runPool_cons] at h
    cases op with
    | acquire =>
      rw [poolStep_acquire] at h
      by_cases ha : a = 0
      · rw [if_pos ha] at h
        simp at h
      · rw [if_neg ha] at h
        have := ih (a - 1) (c + 1) st h
        omega
    | release =>
      rw [poolStep_release] at h
      by_cases hc : c = 0
      · rw [if_pos hc] at h
        simp at h
      · rw [if_neg hc] at h
        have := ih (a + 1) (c - 1) st h
        omega

/-- C8: the buffer pool of `downloadFileInParallel` is created with exactly
`min(downloadConcurrency, numberOfChunks)` buffers, each of capacity
`downloadChunkSize`; exactly that many workers are spawned; and in every
reachable pool state the number of simultaneously checked-out buffers is at
most that pool size.  In particular, with concurrency 4 and 2 chunks only
2 workers and 2 buffers exist. -/
theorem bufferPool_bounded (downloadConcurrency downloadChunkSize : Int)
    (store : S3Store) (hpar : downloadChunkSize < store.size) :
    numberOfWorkersOf downloadConcurrency
        (numberOfChunksInt store.size downloadChunkSize)
      = min downloadConcurrency (numberOfChunksInt store.size downloadChunkSize)
    ∧ (downloadFileTrace downloadConcurrency downloadChunkSize store).workers
        = some ((numberOfWorkersOf downloadConcurrency
            (numberOfChunksInt store.size downloadChunkSize)).toNat)
    ∧ (downloadFileTrace downloadConcurrency downloadChunkSize store).poolBuffers
        = some (mkDownloadBuffers
            ((numberOfWorkersOf downloadConcurrency
              (numberOfChunksInt store.size downloadChunkSize)).toNat)
            downloadChunkSize)
    ∧ (∀ (count : Nat),
        (mkDownloadBuffers count downloadChunkSize).length = count
        ∧ ∀ b ∈ mkDownloadBuffers count downloadChunkSize,
            b.length = downloadChunkSize.toNat)
    ∧ (∀ (poolSize : Nat) (ops : List PoolOp) (st : Nat × Nat),
        runPool (poolSize, 0) ops = some st → st.2 ≤ poolSize)
    ∧ numberOfWorkersOf 4 2 = 2 := by
  have hnotle : ¬ store.size ≤ downloadChunkSize := by omega
  refine ⟨?_, ?_, ?_, ?_, ?_, ?_⟩
  · unfold numberOfWorkersOf
    rcases lt_or_le (numberOfChunksInt store.size downloadChunkSize)
      downloadConcurrency with h | h
    · rw [if_pos h, min_eq_right (le_of_lt h)]
    · rw [if_neg (by omega), min_eq_left h]
  · unfold downloadFileTrace
    rw [if_neg hnotle]
  · unfold downloadFileTrace
    rw [if_neg hnotle]
  · intro count
    refine ⟨by simp [mkDownloadBuffers], ?_⟩
    intro b hb
    unfold mkDownloadBuffers at hb
    rw [List.eq_of_mem_replicate hb]
    simp
  · intro poolSize ops st h
    have := runPool_conserves ops poolSize 0 st h
    omega
  · decide

/-- Witness for C8: with concurrency 4 and a 2-chunk object (size 9,
chunk size 5) the trace spawns exactly 2 workers. -/
theorem bufferPool_bounded_witness :
    (downloadFileTrace 4 5 (S3Store.mk 9 [0, 1, 2, 3, 4, 5, 6, 7, 8])).workers
      = some ((numberOfWorkersOf 4 (numberOfChunksInt 9 5)).toNat) :=
  (bufferPool_bounded 4 5 (S3Store.mk 9 [0, 1, 2, 3, 4, 5, 6, 7, 8]) (by decide)).2.1

/-! ### Returned byte counts and GetS3Path -/

/-- C9 counterexample: the upload's returned byte count is whatever the
post-upload `HeadObject` probe reports, not the source's byte count — with
a 3-byte source and a probe reporting 7, `uploadFile` returns 7. -/
theorem uploadFile_ignores_source_counterexample :
    uploadFileModel (UploadEnv.mk none (Except.ok 7)) [0, 0, 0] = Except.ok 7
    ∧ (([0, 0, 0] : List Nat).length : Int) = 3
    ∧ (7 : Int) ≠ 3 := by
  refine ⟨rfl, rfl, by decide⟩

/-- C9 (amended): on success the transfer returns the probed object size as
its byte count: a download returns the `HeadObject` `ContentLength` probed
before the transfer, and an upload returns the `HeadObject` `ContentLength`
probed after the upload.  No comparison against the source's byte count is
performed. -/
theorem transfer_returns_probed_size (downloadConcurrency downloadChunkSize : Int)
    (store : S3Store) (env : UploadEnv) (source : List Nat) (nbytes : Int)
    (hup : env.uploadErr = none) (hhead : env.headResult = Except.ok nbytes) :
    (downloadFileTrace downloadConcurrency downloadChunkSize store).returned
      = store.size
    ∧ uploadFileModel env source = Except.ok nbytes := by
  refine ⟨?_, ?_⟩
  · unfold downloadFileTrace
    by_cases h : store.size ≤ downloadChunkSize
    · rw [if_pos h]
    · rw [if_neg h]
  · unfold uploadFileModel
    rw [hup, hhead]

/-- Witness for the amended C9: a 3-byte object probed at 3 is reported as
3 bytes by both directions. -/
theorem transfer_returns_probed_size_witness :
    (downloadFileTrace 6 5 (S3Store.mk 3 [0, 0, 0])).returned = 3
    ∧ uploadFileModel (UploadEnv.mk none (Except.ok 3)) [0, 0, 0] = Except.ok 3 :=
  transfer_returns_probed_size 6 5 (S3Store.mk 3 [0, 0, 0])
    (UploadEnv.mk none (Except.ok 3)) [0, 0, 0] 3 rfl rfl

/-- C10: `GetS3Path(folder, path)` is defined only for paths with at least
four "/"-separated components: for such a path it returns
`folder + "/" + <the last four components joined by "/">` (the suffix kept
has length exactly 4 and the rest of the components are dropped); for a
path with fewer than four components the slice expression
`pathArray[(len(pathArray)-4):]` has a negative low index and the function
panics instead of returning a key. -/
theorem getS3Path_last_four (folder path : String) :
    (4 ≤ (goSplitChar '/' path.data).length →
      GetS3Path folder path
        = some (folder ++ "/" ++
            String.mk (goJoin ['/']
              ((goSplitChar '/' path.data).drop
                ((goSplitChar '/' path.data).length - 4))))
      ∧ ((goSplitChar '/' path.data).drop
          ((goSplitChar '/' path.data).length - 4)).length = 4
      ∧ (goSplitChar '/' path.data).take ((goSplitChar '/' path.data).length - 4)
          ++ (goSplitChar '/' path.data).drop ((goSplitChar '/' path.data).length - 4)
          = goSplitChar '/' path.data)
    ∧ ((goSplitChar '/' path.data).length < 4 → GetS3Path folder path = none) := by
  refine ⟨?_, ?_⟩
  · intro h4
    refine ⟨?_, ?_, ?_⟩
    · unfold GetS3Path
      rw [if_pos h4]
    · rw [List.length_drop]
      omega
    · exact List.take_append_drop _ _
  · intro hlt
    unfold GetS3Path
    rw [if_neg (by omega)]

/-- Witness for C10: the repository test's path keeps its last four
components, and a three-component path panics. -/
theorem getS3Path_last_four_witness :
    GetS3Path "s3/Dir"
        "/a/b/c/tmp/datadir/gpseg-1/backups/20180101/20180101082233/backup_file"
      = some "s3/Dir/backups/20180101/20180101082233/backup_file"
    ∧ GetS3Path "s3/Dir" "a/b/c" = none := by
  refine ⟨?_, ?_⟩
  · have h := (getS3Path_last_four "s3/Dir"
      "/a/b/c/tmp/datadir/gpseg-1/backups/20180101/20180101082233/backup_file").1
      (by decide)
    exact h.1.trans (by decide)
  · exact (getS3Path_last_four "s3/Dir" "a/b/c").2 (by decide)
